import Mathlib

/-!
# Verification of the bee2 DER codec (`der.h`)

The repository ships the interface `src/include/bee2/core/der.h` of a DER
(Distinguished Encoding Rules) TLV codec.  The implementation file `der.c`
of the repository is not present under `src/`, so the operational
definitions below are modelled from the specification: the documentation
blocks of `der.h` together with the natural-language spec (tag packing
into a 32-bit word, canonical length encoding, the validator `derSize` /
`derIsValid`, the assembler `derEncode` and the extractors `derDecode` /
`derDecode2`).

Modelling conventions:
* an octet buffer `[count]der` is a `List Nat` whose entries are the first
  `count` octets of the buffer (so `count` is the list's length);
* octets are `Nat` values; well-formed buffers satisfy `DerBytes`;
* the C sentinel `SIZE_MAX` ("format error") is modelled by `none` of an
  `Option` result, success by `some`;
* `size_t` representability is bounded by the model constant `SIZE_MAX`.
-/

namespace Bee2Der

/-- Model of the platform constant `SIZE_MAX` (64-bit `size_t`). -/
def SIZE_MAX : Nat := 2 ^ 64 - 1

/-- All entries of the list are octet values. -/
def DerBytes (l : List Nat) : Prop := ∀ b ∈ l, b < 256

instance (l : List Nat) : Decidable (DerBytes l) := by
  unfold DerBytes; infer_instance

/-- Big-endian base-`B` digit extraction, with explicit fuel so that the
definition is structurally recursive and kernel-reducible. -/
def digitsAux (B : Nat) : Nat → Nat → List Nat
  | 0, _ => []
  | _ + 1, 0 => []
  | f + 1, n + 1 => digitsAux B f ((n + 1) / B) ++ [(n + 1) % B]

/-- Minimal big-endian base-`B` digits of `n` (empty for `n = 0`,
leading digit nonzero otherwise, provided `2 ≤ B`). -/
def digitsBE (B n : Nat) : List Nat := digitsAux B n n

/-- Accumulate big-endian base-`B` digits onto an initial value. -/
def accumB (B : Nat) (a : Nat) (l : List Nat) : Nat :=
  l.foldl (fun x d => x * B + d) a

/-- Minimal big-endian base-256 octets of a length `n` (per `der.h`:
`L = \sum l_i 256^i` with `l_{r-1} != 0`). -/
def bytesBE (n : Nat) : List Nat := digitsBE 256 n

/-- Modelled from the spec: the continuation octets of a long-form tag
number `n` (missing `der.c`).  Per `der.h`: the number is written as
`(t_{r-1} | 128), ..., (t_1 | 128), t_0` in base 128 with `t_{r-1} != 0`. -/
def tagContEnc (n : Nat) : List Nat :=
  (digitsBE 128 (n / 128)).map (· + 128) ++ [n % 128]

/-- Modelled from the spec: encoding of the T field from the packed 32-bit
tag word (missing `der.c`).  Bits 0–4 (`tag % 32`) are the number field;
if they are not all ones the tag is short and bits 8–31 (`tag / 256`) must
be zero; otherwise the tag is long and bits 8–31 hold the number, which
must be ≥ 31.  Violations are format errors (`none`). -/
def derTagEnc (tag : Nat) : Option (List Nat) :=
  if tag % 32 = 31 then
    if tag / 256 < 31 then none
    else some ((tag % 256) :: tagContEnc (tag / 256))
  else
    if tag / 256 = 0 then some [tag % 256] else none

/-- Modelled from the spec: canonical DER encoding of the L field
(missing `der.c`).  Short form for `L < 128`; otherwise `0x80 | r`
followed by the `r` minimal big-endian octets of `L`. -/
def derLenEnc (L : Nat) : List Nat :=
  if L < 128 then [L] else (128 + (bytesBE L).length) :: bytesBE L

/-- Modelled from the spec: `derEncode(der, tag, value, len)` with
`der != 0` (missing `der.c`): produce the full TLV octet string, or a
format error (`none`, modelling the `SIZE_MAX` return) when the tag word
violates the packing invariants. -/
def derEncodeRun (tag : Nat) (value : List Nat) : Option (List Nat) :=
  (derTagEnc tag).map (fun T => T ++ derLenEnc value.length ++ value)

/-- Modelled from the spec: the size computed by `derEncode` — number of
tag octets plus number of length octets plus `len` (missing `der.c`). -/
def derEncodeSize (tag : Nat) (len : Nat) : Option Nat :=
  (derTagEnc tag).map (fun T => T.length + (derLenEnc len).length + len)

/-- Modelled from the spec: `derEncode(0, tag, value, len)` — the
size-query mode with a null destination buffer (missing `der.c`).  The
`value` argument (possibly the null pointer, `none`) is never read; the
tag packing is still checked. -/
def derEncodeQuery (tag : Nat) (_value : Option (List Nat)) (len : Nat) :
    Option Nat :=
  derEncodeSize tag len

/-- Modelled from the spec: the long-form tag-number loop of the decoder
(missing `der.c`).  Reads continuation octets (high bit set) up to and
including the first octet with clear high bit, accumulating the number in
base 128; fails (`none`) when the octets run out or the accumulation
overflows the 24-bit number field.  Returns the number and the count of
octets consumed. -/
def tagNumDec : List Nat → Nat → Option (Nat × Nat)
  | [], _ => none
  | b :: rest, acc =>
    let acc2 := acc * 128 + b % 128
    if 2 ^ 24 ≤ acc2 then none
    else if b < 128 then some (acc2, 1)
    else (tagNumDec rest acc2).map (fun p => (p.1, p.2 + 1))

/-- Modelled from the spec: decoding of the T field into the packed
32-bit tag word together with the number of octets consumed (missing
`der.c`).  A long form whose number is < 31 is a format error. -/
def derTagDec (der : List Nat) : Option (Nat × Nat) :=
  match der with
  | [] => none
  | b0 :: rest =>
    if b0 % 32 = 31 then
      match tagNumDec rest 0 with
      | none => none
      | some (n, c) => if n < 31 then none else some (b0 + n * 256, 1 + c)
    else some (b0, 1)

/-- Modelled from the spec: decoding of the L field together with the
number of octets consumed (missing `der.c`).  Rejects the indefinite form
`0x80`, the reserved first octet `0xFF`, truncated long forms, a zero
leading octet (non-minimal), a long form reconstructing `L < 128`, and
lengths exceeding `SIZE_MAX`. -/
def derLenDec (der : List Nat) : Option (Nat × Nat) :=
  match der with
  | [] => none
  | b0 :: rest =>
    if b0 < 128 then some (b0, 1)
    else if b0 = 128 then none
    else if b0 = 255 then none
    else
      let r := b0 - 128
      if rest.length < r then none
      else
        let ds := rest.take r
        if ds.head? = some 0 then none
        else
          let L := accumB 256 0 ds
          if L < 128 then none
          else if SIZE_MAX < L then none
          else some (L, 1 + r)

/-- Modelled from the spec: `derSize(der, count)` (missing `der.c`).
Decodes T then L from the front of the buffer and returns the record's
true total length `tc + lc + L` provided that many octets are available
within `count` (the list's length); otherwise a format error. -/
def derSize (der : List Nat) : Option Nat :=
  match derTagDec der with
  | none => none
  | some (_, tc) =>
    match derLenDec (der.drop tc) with
    | none => none
    | some (L, lc) =>
      if tc + lc + L ≤ der.length then some (tc + lc + L) else none

/-- Modelled from the spec: `derIsValid(der, count)` (missing `der.c`) —
true iff `derSize(der, count)` succeeds and returns exactly `count`. -/
def derIsValid (der : List Nat) : Bool :=
  derSize der == some der.length

/-- Modelled from the spec: `derIsValid2(der, count, tag)` (missing
`der.c`) — `derIsValid` and the decoded tag equals `tag`. -/
def derIsValid2 (der : List Nat) (tag : Nat) : Bool :=
  derIsValid der && ((derTagDec der).map Prod.fst == some tag)

/-- Modelled from the spec: `derDecode(tag, value, der, count)` (missing
`der.c`).  Requires `derIsValid`; on success returns the decoded tag
word, the `L` value octets copied out of the buffer, and the returned
length `L`.  On failure returns `none` (the `SIZE_MAX` sentinel with no
output written). -/
def derDecode (der : List Nat) : Option (Nat × List Nat × Nat) :=
  if derIsValid der then
    match derTagDec der with
    | none => none
    | some (t, tc) =>
      match derLenDec (der.drop tc) with
      | none => none
      | some (L, lc) => some (t, (der.drop (tc + lc)).take L, L)
  else none

/-- Modelled from the spec: `derDecode2(tag, value, der, count)` (missing
`der.c`).  Same as `derDecode` but instead of copying returns the offset
of the value inside the buffer (the returned pointer) together with `L`. -/
def derDecode2 (der : List Nat) : Option (Nat × Nat × Nat) :=
  if derIsValid der then
    match derTagDec der with
    | none => none
    | some (t, tc) =>
      match derLenDec (der.drop tc) with
      | none => none
      | some (L, lc) => some (t, tc + lc, L)
  else none

/-! ## Arithmetic facts about the digit helpers -/

theorem digitsAux_congr {B : Nat} (hB : 2 ≤ B) :
    ∀ f f' n, n ≤ f → n ≤ f' → digitsAux B f n = digitsAux B f' n := by
  intro f
  induction f with
  | zero =>
    intro f' n hf _
    interval_cases n
    cases f' <;> rfl
  | succ g ih =>
    intro f' n hf hf'
    match n, f' with
    | 0, 0 => rfl
    | 0, g' + 1 => rfl
    | m + 1, g' + 1 =>
      simp only [digitsAux]
      rw [ih g' ((m + 1) / B) ?_ ?_]
      · exact Nat.le_of_lt_succ (Nat.lt_of_lt_of_le
          (Nat.div_lt_self (Nat.succ_pos m) hB) hf)
      · exact Nat.le_of_lt_succ (Nat.lt_of_lt_of_le
          (Nat.div_lt_self (Nat.succ_pos m) hB) hf')

theorem digitsBE_zero (B : Nat) : digitsBE B 0 = [] := rfl

theorem digitsBE_succ {B n : Nat} (hB : 2 ≤ B) (hn : n ≠ 0) :
    digitsBE B n = digitsBE B (n / B) ++ [n % B] := by
  obtain ⟨m, rfl⟩ := Nat.exists_eq_succ_of_ne_zero hn
  show digitsAux B (m + 1) (m + 1) = _
  simp only [digitsAux, digitsBE]
  rw [digitsAux_congr hB m ((m + 1) / B) ((m + 1) / B)
    (Nat.le_of_lt_succ (Nat.div_lt_self (Nat.succ_pos m) hB)) le_rfl]

theorem digitsBE_ne_nil {B n : Nat} (hB : 2 ≤ B) (hn : n ≠ 0) :
    digitsBE B n ≠ [] := by
  rw [digitsBE_succ hB hn]
  simp

theorem digitsBE_lt {B : Nat} (hB : 2 ≤ B) :
    ∀ n, ∀ d ∈ digitsBE B n, d < B := by
  intro n
  induction n using Nat.strong_induction_on with
  | _ n ih =>
    rcases eq_or_ne n 0 with rfl | hn
    · simp [digitsBE_zero]
    · rw [digitsBE_succ hB hn]
      intro d hd
      rcases List.mem_append.mp hd with h | h
      · exact ih (n / B) (Nat.div_lt_self (Nat.pos_of_ne_zero hn) hB) d h
      · simp only [List.mem_singleton] at h
        exact h ▸ Nat.mod_lt n (by omega)

theorem accumB_append (B a : Nat) (l l' : List Nat) :
    accumB B a (l ++ l') = accumB B (accumB B a l) l' := by
  simp [accumB, List.foldl_append]

theorem accumB_digitsBE {B : Nat} (hB : 2 ≤ B) :
    ∀ n a, accumB B a (digitsBE B n) =
      a * B ^ (digitsBE B n).length + n := by
  intro n
  induction n using Nat.strong_induction_on with
  | _ n ih =>
    intro a
    rcases eq_or_ne n 0 with rfl | hn
    · simp [digitsBE_zero, accumB]
    · rw [digitsBE_succ hB hn, accumB_append,
        ih (n / B) (Nat.div_lt_self (Nat.pos_of_ne_zero hn) hB) a]
      simp only [accumB, List.foldl_cons, List.foldl_nil, List.length_append,
        List.length_singleton, pow_succ]
      set q := n / B with hq
      set r := n % B with hr
      have key : q * B + r = n := Nat.div_add_mod' n B
      rw [← key]
      ring

theorem digitsBE_head_ne_zero {B : Nat} (hB : 2 ≤ B) :
    ∀ n, n ≠ 0 → ∀ h t, digitsBE B n = h :: t → h ≠ 0 := by
  intro n
  induction n using Nat.strong_induction_on with
  | _ n ih =>
    intro hn h t heq
    rw [digitsBE_succ hB hn] at heq
    rcases eq_or_ne (n / B) 0 with hq | hq
    · rw [hq, digitsBE_zero, List.nil_append] at heq
      have hnB : n < B := (Nat.div_eq_zero_iff (by omega)).mp hq
      injection heq with h1 h2
      rw [← h1, Nat.mod_eq_of_lt hnB]
      exact hn
    · obtain ⟨h', t', heq'⟩ := List.exists_cons_of_ne_nil (digitsBE_ne_nil hB hq)
      rw [heq', List.cons_append] at heq
      injection heq with h1 h2
      exact h1 ▸ ih (n / B) (Nat.div_lt_self (Nat.pos_of_ne_zero hn) hB) hq h' t' heq'

theorem digitsBE_unique {B : Nat} (hB : 2 ≤ B) (ds : List Nat)
    (hlt : ∀ d ∈ ds, d < B) (hhd : ds.head? ≠ some 0) :
    digitsBE B (accumB B 0 ds) = ds := by
  induction ds using List.reverseRecOn with
  | nil => simp [accumB, digitsBE_zero]
  | append_singleton l d ih =>
    have hd : d < B := hlt d (by simp)
    rcases eq_or_ne l [] with rfl | hl
    · have hd0 : d ≠ 0 := by
        simpa using hhd
      have : accumB B 0 ([] ++ [d]) = d := by simp [accumB]
      rw [this, digitsBE_succ hB hd0, Nat.div_eq_of_lt hd, Nat.mod_eq_of_lt hd,
        digitsBE_zero]
    · obtain ⟨x, t, rfl⟩ := List.exists_cons_of_ne_nil hl
      have hih : digitsBE B (accumB B 0 (x :: t)) = x :: t := by
        apply ih
        · intro d' hd'
          exact hlt d' (List.mem_append_left _ hd')
        · simpa using hhd
      set v := accumB B 0 (x :: t) with hv
      have hvne : v ≠ 0 := by
        intro h0
        rw [h0, digitsBE_zero] at hih
        exact List.cons_ne_nil x t hih.symm
      have hacc : accumB B 0 (x :: t ++ [d]) = v * B + d := by
        rw [show x :: t ++ [d] = (x :: t) ++ [d] from rfl, accumB_append, ← hv]
        rfl
      have hne2 : v * B + d ≠ 0 :=
        (Nat.add_pos_left (Nat.mul_pos (Nat.pos_of_ne_zero hvne) (by omega)) d).ne'
      have hdiv : (v * B + d) / B = v := by
        rw [Nat.mul_comm v B, Nat.mul_add_div (by omega), Nat.div_eq_of_lt hd,
          Nat.add_zero]
      have hmod : (v * B + d) % B = d := by
        rw [Nat.mul_comm v B, Nat.mul_add_mod, Nat.mod_eq_of_lt hd]
      rw [hacc, digitsBE_succ hB hne2, hdiv, hmod, hih]

theorem digitsBE_length_le {B : Nat} (hB : 2 ≤ B) :
    ∀ k n, n < B ^ k → (digitsBE B n).length ≤ k := by
  intro k
  induction k with
  | zero =>
    intro n hn
    rw [pow_zero, Nat.lt_one_iff] at hn
    subst hn
    simp [digitsBE_zero]
  | succ k ih =>
    intro n hn
    rcases eq_or_ne n 0 with rfl | hne
    · simp [digitsBE_zero]
    · rw [digitsBE_succ hB hne]
      simp only [List.length_append, List.length_singleton]
      have : n / B < B ^ k := by
        rw [Nat.div_lt_iff_lt_mul (by omega)]
        calc n < B ^ (k + 1) := hn
          _ = B ^ k * B := pow_succ B k
      exact Nat.add_le_add_right (ih (n / B) this) 1

theorem accumB_ge {B : Nat} (hB : 1 ≤ B) :
    ∀ l a, a ≤ accumB B a l := by
  intro l
  induction l with
  | nil => intro a; exact le_rfl
  | cons d t ih =>
    intro a
    calc a ≤ a * B + d := by nlinarith
      _ ≤ accumB B (a * B + d) t := ih (a * B + d)
      _ = accumB B a (d :: t) := rfl

/-! ## The long-form tag-number loop -/

theorem tagNumDec_bound :
    ∀ l acc n c, tagNumDec l acc = some (n, c) → n < 2 ^ 24 := by
  intro l
  induction l with
  | nil => intro acc n c h; simp [tagNumDec] at h
  | cons b t ih =>
    intro acc n c h
    simp only [tagNumDec] at h
    split at h
    · exact absurd h (by simp)
    · split at h
      · injection h with h'
        injection h' with h1 h2
        omega
      · obtain ⟨⟨n', c'⟩, hrec, hmap⟩ := Option.map_eq_some'.mp h
        cases hmap
        exact ih (acc * 128 + b % 128) n' c' hrec

theorem tagNumDec_consumed :
    ∀ l acc n c, tagNumDec l acc = some (n, c) →
      c = l.findIdx (fun b => decide (b < 128)) + 1 := by
  intro l
  induction l with
  | nil => intro acc n c h; simp [tagNumDec] at h
  | cons b t ih =>
    intro acc n c h
    simp only [tagNumDec] at h
    split at h
    · exact absurd h (by simp)
    · split at h
      · rename_i hb
        injection h with h'
        injection h' with h1 h2
        rw [List.findIdx_cons]
        simp only [hb, decide_true_eq_true, Bool.cond_true]
        omega
      · rename_i hb
        obtain ⟨⟨n', c'⟩, hrec, hmap⟩ := Option.map_eq_some'.mp h
        have hc : c = c' + 1 := by injection hmap with h1 h2; omega
        have hrc := ih (acc * 128 + b % 128) n' c' hrec
        rw [List.findIdx_cons]
        simp only [decide_eq_false hb, Bool.cond_false]
        omega

theorem tagNumDec_append (ds : List Nat) (hds : ∀ x ∈ ds, x < 128)
    (d : Nat) (hd : d < 128) (rest : List Nat) :
    ∀ acc, accumB 128 acc (ds ++ [d]) < 2 ^ 24 →
      tagNumDec (ds.map (· + 128) ++ d :: rest) acc =
        some (accumB 128 acc (ds ++ [d]), ds.length + 1) := by
  induction ds with
  | nil =>
    intro acc hbound
    have hacc : accumB 128 acc ([] ++ [d]) = acc * 128 + d := by
      simp [accumB]
    rw [hacc] at hbound ⊢
    simp only [List.map_nil, List.nil_append, List.length_nil]
    rw [tagNumDec]
    simp only [Nat.mod_eq_of_lt hd]
    rw [if_neg (by omega), if_pos hd]
  | cons x tl ih =>
    intro acc hbound
    have hx : x < 128 := hds x (by simp)
    have hstep : accumB 128 acc ((x :: tl) ++ [d]) =
        accumB 128 (acc * 128 + x) (tl ++ [d]) := rfl
    rw [hstep] at hbound ⊢
    simp only [List.map_cons, List.cons_append]
    rw [tagNumDec]
    have hmod : (x + 128) % 128 = x := by
      rw [Nat.add_mod_right, Nat.mod_eq_of_lt hx]
    simp only [hmod]
    have hge : acc * 128 + x ≤ accumB 128 (acc * 128 + x) (tl ++ [d]) :=
      accumB_ge (by norm_num) _ _
    rw [if_neg (by omega), if_neg (by omega)]
    rw [ih (fun y hy => hds y (List.mem_cons_of_mem x hy)) (acc * 128 + x) hbound]
    simp [Option.map_some']

theorem tagNumDec_contEnc (n : Nat) (hlt : n < 2 ^ 24) (rest : List Nat) :
    tagNumDec (tagContEnc n ++ rest) 0 = some (n, (tagContEnc n).length) := by
  have h2 : (2 : Nat) ≤ 128 := by norm_num
  have hds := digitsBE_lt h2 (n / 128)
  have hd : n % 128 < 128 := Nat.mod_lt _ (by norm_num)
  have hval : accumB 128 0 (digitsBE 128 (n / 128) ++ [n % 128]) = n := by
    rw [accumB_append, accumB_digitsBE h2]
    simp only [Nat.zero_mul, Nat.zero_add, accumB, List.foldl_cons, List.foldl_nil]
    exact Nat.div_add_mod' n 128
  have := tagNumDec_append (digitsBE 128 (n / 128)) hds (n % 128) hd rest 0
    (by rw [hval]; exact hlt)
  unfold tagContEnc
  rw [List.append_assoc, List.singleton_append, this, hval]
  simp

/-! ## Decoding an encoded T field / L field -/

theorem derTagDec_enc (tag : Nat) (h32 : tag < 2 ^ 32) (T : List Nat)
    (hT : derTagEnc tag = some T) (rest : List Nat) :
    derTagDec (T ++ rest) = some (tag, T.length) := by
  unfold derTagEnc at hT
  by_cases h31 : tag % 32 = 31
  · rw [if_pos h31] at hT
    by_cases hnum : tag / 256 < 31
    · simp [hnum] at hT
    · rw [if_neg hnum] at hT
      injection hT with hT
      subst hT
      rw [List.cons_append, derTagDec]
      have hmod : tag % 256 % 32 = 31 := by
        rw [Nat.mod_mod_of_dvd tag (by norm_num : (32 : Nat) ∣ 256)]
        exact h31
      rw [if_pos hmod]
      have hlt24 : tag / 256 < 2 ^ 24 := by
        rw [Nat.div_lt_iff_lt_mul (by norm_num)]
        calc tag < 2 ^ 32 := h32
          _ = 2 ^ 24 * 256 := by norm_num
      rw [tagNumDec_contEnc (tag / 256) hlt24 rest]
      show (if tag / 256 < 31 then none
        else some (tag % 256 + tag / 256 * 256, 1 + (tagContEnc (tag / 256)).length)) = _
      rw [if_neg hnum, Nat.mod_add_div' tag 256]
      simp [Nat.add_comm]
  · rw [if_neg h31] at hT
    by_cases hz : tag / 256 = 0
    · rw [if_pos hz] at hT
      injection hT with hT
      subst hT
      have htag : tag % 256 = tag :=
        Nat.mod_eq_of_lt ((Nat.div_eq_zero_iff (by omega)).mp hz)
      rw [List.cons_append, derTagDec, htag, if_neg h31]
      simp
    · simp [hz] at hT

theorem derLenDec_enc (L : Nat) (hL : L ≤ SIZE_MAX) (rest : List Nat) :
    derLenDec (derLenEnc L ++ rest) = some (L, (derLenEnc L).length) := by
  unfold derLenEnc
  by_cases h : L < 128
  · rw [if_pos h]
    rw [List.singleton_append, derLenDec, if_pos h]
    simp
  · rw [if_neg h]
    have h2 : (2 : Nat) ≤ 256 := by norm_num
    have hLne : L ≠ 0 := by omega
    have hnil : bytesBE L ≠ [] := digitsBE_ne_nil h2 hLne
    have hlen1 : 1 ≤ (bytesBE L).length := List.length_pos.mpr hnil
    have hlen8 : (bytesBE L).length ≤ 8 := by
      apply digitsBE_length_le h2 8 L
      have : SIZE_MAX < 256 ^ 8 := by norm_num [SIZE_MAX]
      omega
    rw [List.cons_append, derLenDec]
    rw [if_neg (by omega), if_neg (by omega), if_neg (by omega)]
    have hr : 128 + (bytesBE L).length - 128 = (bytesBE L).length := by omega
    rw [hr]
    have hlen : ¬ (bytesBE L ++ rest).length < (bytesBE L).length := by
      rw [List.length_append]
      omega
    rw [if_neg hlen]
    have htake : (bytesBE L ++ rest).take (bytesBE L).length = bytesBE L :=
      List.take_left _ _
    rw [htake]
    obtain ⟨h0, t0, hht⟩ := List.exists_cons_of_ne_nil hnil
    have hhd : (bytesBE L).head? ≠ some 0 := by
      rw [hht]
      simp only [List.head?_cons, ne_eq, Option.some.injEq]
      exact digitsBE_head_ne_zero h2 L hLne h0 t0 hht
    rw [if_neg (by simpa using hhd)]
    have hacc : accumB 256 0 (bytesBE L) = L := by
      rw [bytesBE, accumB_digitsBE h2]
      simp
    rw [hacc, if_neg (by omega), if_neg (by omega)]
    simp [Nat.add_comm]

/-! ## Computation lemmas for the composed operations -/

theorem derSize_eq_of (der : List Nat) (t tc L lc : Nat)
    (ht : derTagDec der = some (t, tc))
    (hl : derLenDec (der.drop tc) = some (L, lc)) :
    derSize der =
      if tc + lc + L ≤ der.length then some (tc + lc + L) else none := by
  simp only [derSize, ht, hl]

theorem derSize_none_tag (der : List Nat) (ht : derTagDec der = none) :
    derSize der = none := by
  simp only [derSize, ht]

theorem derSize_none_len (der : List Nat) (t tc : Nat)
    (ht : derTagDec der = some (t, tc))
    (hl : derLenDec (der.drop tc) = none) :
    derSize der = none := by
  simp only [derSize, ht, hl]

theorem derDecode_eq_of (der : List Nat) (hvalid : derIsValid der = true)
    (t tc L lc : Nat) (ht : derTagDec der = some (t, tc))
    (hl : derLenDec (der.drop tc) = some (L, lc)) :
    derDecode der = some (t, (der.drop (tc + lc)).take L, L) := by
  simp only [derDecode, hvalid, if_true, ht, hl]

theorem derDecode2_eq_of (der : List Nat) (hvalid : derIsValid der = true)
    (t tc L lc : Nat) (ht : derTagDec der = some (t, tc))
    (hl : derLenDec (der.drop tc) = some (L, lc)) :
    derDecode2 der = some (t, tc + lc, L) := by
  simp only [derDecode2, hvalid, if_true, ht, hl]

theorem derEncodeRun_eq (tag : Nat) (v enc : List Nat)
    (henc : derEncodeRun tag v = some enc) :
    ∃ T, derTagEnc tag = some T ∧ enc = T ++ derLenEnc v.length ++ v := by
  unfold derEncodeRun at henc
  cases hT : derTagEnc tag with
  | none => rw [hT] at henc; simp at henc
  | some T =>
    rw [hT] at henc
    simp only [Option.map_some'] at henc
    exact ⟨T, rfl, (Option.some.inj henc).symm⟩

theorem derSize_enc (tag : Nat) (h32 : tag < 2 ^ 32) (v : List Nat)
    (hv : v.length ≤ SIZE_MAX) (enc : List Nat)
    (henc : derEncodeRun tag v = some enc) :
    derSize enc = some enc.length := by
  obtain ⟨T, hT, rfl⟩ := derEncodeRun_eq tag v enc henc
  have hassoc : T ++ derLenEnc v.length ++ v = T ++ (derLenEnc v.length ++ v) :=
    List.append_assoc T _ v
  have ht : derTagDec (T ++ derLenEnc v.length ++ v) = some (tag, T.length) := by
    rw [hassoc]
    exact derTagDec_enc tag h32 T hT _
  have hdrop : (T ++ derLenEnc v.length ++ v).drop T.length =
      derLenEnc v.length ++ v := by
    rw [hassoc]
    exact List.drop_left T _
  have hl : derLenDec ((T ++ derLenEnc v.length ++ v).drop T.length) =
      some (v.length, (derLenEnc v.length).length) := by
    rw [hdrop]
    exact derLenDec_enc v.length hv v
  rw [derSize_eq_of _ _ _ _ _ ht hl]
  have hlen : (T ++ derLenEnc v.length ++ v).length =
      T.length + (derLenEnc v.length).length + v.length := by
    rw [List.length_append, List.length_append]
  rw [if_pos (by omega), hlen]

theorem derIsValid_enc (tag : Nat) (h32 : tag < 2 ^ 32) (v : List Nat)
    (hv : v.length ≤ SIZE_MAX) (enc : List Nat)
    (henc : derEncodeRun tag v = some enc) :
    derIsValid enc = true := by
  rw [derIsValid, derSize_enc tag h32 v hv enc henc]
  simp

theorem derDecode_enc (tag : Nat) (h32 : tag < 2 ^ 32) (v : List Nat)
    (hv : v.length ≤ SIZE_MAX) (enc : List Nat)
    (henc : derEncodeRun tag v = some enc) :
    derDecode enc = some (tag, v, v.length) := by
  have hvalid : derIsValid enc = true := derIsValid_enc tag h32 v hv enc henc
  obtain ⟨T, hT, rfl⟩ := derEncodeRun_eq tag v enc henc
  have hassoc : T ++ derLenEnc v.length ++ v = T ++ (derLenEnc v.length ++ v) :=
    List.append_assoc T _ v
  have ht : derTagDec (T ++ derLenEnc v.length ++ v) = some (tag, T.length) := by
    rw [hassoc]
    exact derTagDec_enc tag h32 T hT _
  have hl : derLenDec ((T ++ derLenEnc v.length ++ v).drop T.length) =
      some (v.length, (derLenEnc v.length).length) := by
    rw [hassoc, List.drop_left T _]
    exact derLenDec_enc v.length hv v
  rw [derDecode_eq_of _ hvalid tag T.length v.length (derLenEnc v.length).length ht hl]
  have hdrop2 : (T ++ derLenEnc v.length ++ v).drop
      (T.length + (derLenEnc v.length).length) = v := by
    rw [← List.length_append T (derLenEnc v.length)]
    exact List.drop_left _ _
  rw [hdrop2, List.take_length]

/-! ## Claim theorems -/

/-- Claim C1: `derIsValid(buf, count)` returns true if and only if
`derSize(buf, count)` succeeds and returns exactly `count` (the buffer's
octet count, here the list's length). -/
theorem claim_C1 (der : List Nat) :
    derIsValid der = true ↔ derSize der = some der.length := by
  rw [derIsValid, beq_iff_eq]

/-- Claim C2: for every tag word satisfying the 32-bit packing invariants
and every value span `v` of representable length, `derEncode` produces a
record which `derDecode` decodes back to exactly the same tag and the
same value octets, returning `len = v.length`. -/
theorem claim_C2 (tag : Nat) (v : List Nat) (h32 : tag < 2 ^ 32)
    (hpack : (tag % 32 = 31 ∧ 31 ≤ tag / 256) ∨
      (tag % 32 ≠ 31 ∧ tag / 256 = 0))
    (hv : v.length ≤ SIZE_MAX) :
    ∃ enc, derEncodeRun tag v = some enc ∧
      derDecode enc = some (tag, v, v.length) := by
  obtain ⟨T, hT⟩ : ∃ T, derTagEnc tag = some T := by
    unfold derTagEnc
    rcases hpack with ⟨h1, h2⟩ | ⟨h1, h2⟩
    · rw [if_pos h1, if_neg (by omega)]
      exact ⟨_, rfl⟩
    · rw [if_neg h1, if_pos h2]
      exact ⟨_, rfl⟩
  have henc : derEncodeRun tag v = some (T ++ derLenEnc v.length ++ v) := by
    unfold derEncodeRun
    rw [hT]
    rfl
  exact ⟨_, henc, derDecode_enc tag h32 v hv _ henc⟩

/-- Witness for C2 at `tag = 4`, `v = [1, 2, 3]`. -/
theorem claim_C2_witness :
    ∃ enc, derEncodeRun 4 [1, 2, 3] = some enc ∧
      derDecode enc = some (4, [1, 2, 3], 3) :=
  claim_C2 4 [1, 2, 3] (by decide) (Or.inr ⟨by decide, by decide⟩) (by decide)

/-- Claim C4: a tag word violating the 32-bit packing invariants (short
number field with nonzero high 24 bits, or escape marker with high bits
< 31) makes `derEncode` fail with the error sentinel for every value and
length, in both output and size-query mode; the model functions are total,
so no panic or silent truncation is possible. -/
theorem claim_C4 (tag : Nat) (h32 : tag < 2 ^ 32)
    (hbad : (tag % 32 ≠ 31 ∧ tag / 256 ≠ 0) ∨
      (tag % 32 = 31 ∧ tag / 256 < 31)) :
    (∀ len, derEncodeSize tag len = none) ∧
      (∀ v, derEncodeRun tag v = none) ∧
      (∀ value len, derEncodeQuery tag value len = none) := by
  have htag : derTagEnc tag = none := by
    unfold derTagEnc
    rcases hbad with ⟨h1, h2⟩ | ⟨h1, h2⟩
    · rw [if_neg h1, if_neg h2]
    · rw [if_pos h1, if_pos h2]
  exact ⟨fun len => by simp [derEncodeSize, htag],
    fun v => by simp [derEncodeRun, htag],
    fun value len => by simp [derEncodeQuery, derEncodeSize, htag]⟩

/-- Witness for C4 at `tag = 256` (short number field, bit 8 set). -/
theorem claim_C4_witness :
    derEncodeSize 256 5 = none ∧ derEncodeRun 256 [7] = none ∧
      derEncodeQuery 256 none 5 = none :=
  ⟨(claim_C4 256 (by decide) (Or.inl ⟨by decide, by decide⟩)).1 5,
    (claim_C4 256 (by decide) (Or.inl ⟨by decide, by decide⟩)).2.1 [7],
    (claim_C4 256 (by decide) (Or.inl ⟨by decide, by decide⟩)).2.2 none 5⟩

/-- Claim C7: boundary encodings — length 127 is the single octet `0x7F`,
length 128 is `0x81 0x80`, length 0 is `0x00`, tag number 30 is one octet
with number field `0b11110`, and tag number 31 is a first octet with
number field `0b11111` followed by the continuation octet `0x1F`. -/
theorem claim_C7 :
    derLenEnc 127 = [127] ∧ derLenEnc 128 = [129, 128] ∧
      derLenEnc 0 = [0] ∧
      derTagEnc 30 = some [30] ∧ 30 % 32 = 30 ∧
      derTagEnc (31 + 31 * 256) = some [31, 31] ∧ 31 % 32 = 31 := by
  decide

/-- Claim C8: whenever `derIsValid` is false, both `derDecode` and
`derDecode2` return the format-error sentinel (`none`, modelling
`SIZE_MAX` with no outputs written). -/
theorem claim_C8 (der : List Nat) (h : derIsValid der = false) :
    derDecode der = none ∧ derDecode2 der = none := by
  unfold derDecode derDecode2
  rw [h]
  simp

/-- Witness for C8 at the truncated buffer `[0x30]`. -/
theorem claim_C8_witness :
    derIsValid [48] = false ∧ derDecode [48] = none ∧ derDecode2 [48] = none :=
  ⟨by decide, (claim_C8 [48] (by decide)).1, (claim_C8 [48] (by decide)).2⟩

/-- Claim C9: in size-query mode (`derEncode` with null destination) the
result depends only on `(tag, len)`, never on the value bytes (including
a null value pointer), and it agrees with the length of the octet string
produced in output mode. -/
theorem claim_C9 (tag len : Nat) (v1 v2 : Option (List Nat)) :
    derEncodeQuery tag v1 len = derEncodeQuery tag v2 len ∧
      ∀ v : List Nat, v.length = len →
        derEncodeQuery tag (some v) len = (derEncodeRun tag v).map List.length := by
  refine ⟨rfl, fun v hv => ?_⟩
  subst hv
  unfold derEncodeQuery derEncodeSize derEncodeRun
  cases hT : derTagEnc tag with
  | none => simp
  | some T =>
    simp only [Option.map_some']
    rw [List.length_append, List.length_append]

/-- Witness for C9 at `tag = 4`, `len = 3`, value spans `[1,2,3]`, null,
and `[9,9,9]`. -/
theorem claim_C9_witness :
    derEncodeQuery 4 (some [1, 2, 3]) 3 = derEncodeQuery 4 none 3 ∧
      derEncodeQuery 4 (some [9, 9, 9]) 3 =
        (derEncodeRun 4 [9, 9, 9]).map List.length :=
  ⟨(claim_C9 4 3 (some [1, 2, 3]) none).1,
    (claim_C9 4 3 (some [9, 9, 9]) none).2 [9, 9, 9] (by decide)⟩

/-- Claim C10: on every valid buffer, `derDecode` and `derDecode2` agree —
same decoded tag, same returned length `L`, and the octets `derDecode`
copies are exactly the `L` octets of the buffer that `derDecode2`'s
returned pointer (offset) designates. -/
theorem claim_C10 (der : List Nat) (h : derIsValid der = true) :
    ∃ t off L v, derDecode der = some (t, v, L) ∧
      derDecode2 der = some (t, off, L) ∧
      v = (der.drop off).take L ∧ v.length = L := by
  have hs : derSize der = some der.length := by
    rw [derIsValid] at h
    exact eq_of_beq h
  cases ht : derTagDec der with
  | none => rw [derSize_none_tag der ht] at hs; exact absurd hs (by simp)
  | some p =>
    obtain ⟨t, tc⟩ := p
    cases hl : derLenDec (der.drop tc) with
    | none => rw [derSize_none_len der t tc ht hl] at hs; exact absurd hs (by simp)
    | some q =>
      obtain ⟨L, lc⟩ := q
      rw [derSize_eq_of der t tc L lc ht hl] at hs
      by_cases hle : tc + lc + L ≤ der.length
      · refine ⟨t, tc + lc, L, (der.drop (tc + lc)).take L,
          derDecode_eq_of der h t tc L lc ht hl,
          derDecode2_eq_of der h t tc L lc ht hl, rfl, ?_⟩
        rw [List.length_take, List.length_drop]
        omega
      · rw [if_neg hle] at hs
        exact absurd hs (by simp)

/-- Witness for C10 at the valid buffer `[0x04, 0x02, 9, 9]`. -/
theorem claim_C10_witness :
    derIsValid [4, 2, 9, 9] = true ∧
      ∃ t off L v, derDecode [4, 2, 9, 9] = some (t, v, L) ∧
        derDecode2 [4, 2, 9, 9] = some (t, off, L) ∧
        v = ([4, 2, 9, 9].drop off).take L ∧ v.length = L :=
  ⟨by decide, claim_C10 [4, 2, 9, 9] (by decide)⟩

/-- Claim C6: on a buffer starting with a long-form first tag octet
(number field all ones), tag decoding fails whenever the continuation
loop fails (octets exhausted or 24-bit overflow) or the accumulated
number is < 31; any accepted number is < 2^24; and on success decoding
consumes exactly the first octet plus all continuation octets read (the
octets up to and including the first one with clear high bit). -/
theorem claim_C6 (b0 : Nat) (rest : List Nat) (hb : b0 < 256)
    (h31 : b0 % 32 = 31) :
    (tagNumDec rest 0 = none → derTagDec (b0 :: rest) = none) ∧
      (∀ n c, tagNumDec rest 0 = some (n, c) → n < 31 →
        derTagDec (b0 :: rest) = none) ∧
      (∀ n c, tagNumDec rest 0 = some (n, c) → n < 2 ^ 24) ∧
      (∀ n c, tagNumDec rest 0 = some (n, c) → 31 ≤ n →
        derTagDec (b0 :: rest) = some (b0 + n * 256, 1 + c) ∧
          c = rest.findIdx (fun x => decide (x < 128)) + 1) := by
  refine ⟨fun hnone => ?_, fun n c hsome hlt => ?_,
    fun n c hsome => tagNumDec_bound rest 0 n c hsome,
    fun n c hsome hge => ⟨?_, tagNumDec_consumed rest 0 n c hsome⟩⟩
  · simp [derTagDec, h31, hnone]
  · simp [derTagDec, h31, hsome, if_pos hlt]
  · simp only [derTagDec, h31, if_true, hsome]
    rw [if_neg (by omega)]

/-- Witness for C6 at the buffer `[0x1F, 0x1F]` (long-form tag,
number 31). -/
theorem claim_C6_witness :
    tagNumDec [31] 0 = some (31, 1) ∧
      derTagDec [31, 31] = some (31 + 31 * 256, 1 + 1) ∧
      1 = List.findIdx (fun x => decide (x < 128)) [31] + 1 :=
  ⟨by decide,
    ((claim_C6 31 [31] (by decide) (by decide)).2.2.2 31 1 (by decide) (by decide)).1,
    ((claim_C6 31 [31] (by decide) (by decide)).2.2.2 31 1 (by decide) (by decide)).2⟩

/-- Claim C5: after a successfully decoded tag, a length field whose
first octet is `0x80` (indefinite) or `0xFF` (reserved), or whose long
form has a zero leading octet, or whose long form reconstructs `L < 128`,
makes `derSize` signal a format error and `derIsValid` return false. -/
theorem claim_C5 (der : List Nat) (t tc : Nat)
    (ht : derTagDec der = some (t, tc))
    (hbad : (der.drop tc).head? = some 128 ∨
      (der.drop tc).head? = some 255 ∨
      (∃ r tail, der.drop tc = (128 + r) :: tail ∧ 1 ≤ r ∧ r ≤ 126 ∧
        r ≤ tail.length ∧ (tail.take r).head? = some 0) ∨
      (∃ r tail, der.drop tc = (128 + r) :: tail ∧ 1 ≤ r ∧ r ≤ 126 ∧
        r ≤ tail.length ∧ accumB 256 0 (tail.take r) < 128)) :
    derSize der = none ∧ derIsValid der = false := by
  have hl : derLenDec (der.drop tc) = none := by
    rcases hbad with h1 | h1 |
      ⟨r, tail, heq, hr1, hr2, hrlen, hzero⟩ |
      ⟨r, tail, heq, hr1, hr2, hrlen, hsmall⟩
    · obtain ⟨tail, heq⟩ : ∃ tail, der.drop tc = 128 :: tail := by
        cases hd : der.drop tc with
        | nil => rw [hd] at h1; simp at h1
        | cons x xs =>
          rw [hd] at h1
          simp only [List.head?_cons, Option.some.injEq] at h1
          exact ⟨xs, by rw [h1]⟩
      rw [heq]
      simp [derLenDec]
    · obtain ⟨tail, heq⟩ : ∃ tail, der.drop tc = 255 :: tail := by
        cases hd : der.drop tc with
        | nil => rw [hd] at h1; simp at h1
        | cons x xs =>
          rw [hd] at h1
          simp only [List.head?_cons, Option.some.injEq] at h1
          exact ⟨xs, by rw [h1]⟩
      rw [heq]
      simp [derLenDec]
    · rw [heq]
      simp only [derLenDec]
      rw [if_neg (by omega), if_neg (by omega), if_neg (by omega)]
      have hsub : 128 + r - 128 = r := by omega
      rw [hsub, if_neg (by omega), if_pos hzero]
    · rw [heq]
      simp only [derLenDec]
      rw [if_neg (by omega), if_neg (by omega), if_neg (by omega)]
      have hsub : 128 + r - 128 = r := by omega
      rw [hsub, if_neg (by omega)]
      by_cases hz : (tail.take r).head? = some 0
      · rw [if_pos hz]
      · rw [if_neg hz, if_pos hsmall]
  refine ⟨derSize_none_len der t tc ht hl, ?_⟩
  rw [derIsValid, derSize_none_len der t tc ht hl]
  rfl

/-- Witness for C5 at the buffer `[0x04, 0x80]` (indefinite length). -/
theorem claim_C5_witness :
    derTagDec [4, 128] = some (4, 1) ∧
      derSize [4, 128] = none ∧ derIsValid [4, 128] = false :=
  ⟨by decide,
    (claim_C5 [4, 128] 4 1 (by decide) (Or.inl (by decide))).1,
    (claim_C5 [4, 128] 4 1 (by decide) (Or.inl (by decide))).2⟩

/-- Claim C3: for every representable length `L`, the canonical encoding
`derLenEnc L` is accepted by the length decoder (with exactly its own
octet count consumed), and it is the only octet sequence the decoder
accepts as denoting `L`: any accepted decode of `L` consumed exactly the
octets of `derLenEnc L`. -/
theorem claim_C3 (L : Nat) (hL : L ≤ SIZE_MAX) :
    (∀ rest, derLenDec (derLenEnc L ++ rest) =
      some (L, (derLenEnc L).length)) ∧
      ∀ s c, DerBytes s → derLenDec s = some (L, c) →
        c = (derLenEnc L).length ∧ s.take c = derLenEnc L := by
  refine ⟨fun rest => derLenDec_enc L hL rest, fun s c hbytes hdec => ?_⟩
  cases s with
  | nil => simp [derLenDec] at hdec
  | cons b0 rest =>
    simp only [derLenDec] at hdec
    by_cases h1 : b0 < 128
    · rw [if_pos h1] at hdec
      injection hdec with hdec
      injection hdec with hLv hc
      subst hLv
      rw [← hc, derLenEnc, if_pos h1]
      exact ⟨rfl, rfl⟩
    · rw [if_neg h1] at hdec
      by_cases h2 : b0 = 128
      · rw [if_pos h2] at hdec; exact absurd hdec (by simp)
      · rw [if_neg h2] at hdec
        by_cases h3 : b0 = 255
        · rw [if_pos h3] at hdec; exact absurd hdec (by simp)
        · rw [if_neg h3] at hdec
          by_cases h4 : rest.length < b0 - 128
          · rw [if_pos h4] at hdec; exact absurd hdec (by simp)
          · rw [if_neg h4] at hdec
            by_cases h5 : (rest.take (b0 - 128)).head? = some 0
            · rw [if_pos h5] at hdec; exact absurd hdec (by simp)
            · rw [if_neg h5] at hdec
              by_cases h6 : accumB 256 0 (rest.take (b0 - 128)) < 128
              · rw [if_pos h6] at hdec; exact absurd hdec (by simp)
              · rw [if_neg h6] at hdec
                by_cases h7 : SIZE_MAX < accumB 256 0 (rest.take (b0 - 128))
                · rw [if_pos h7] at hdec; exact absurd hdec (by simp)
                · rw [if_neg h7] at hdec
                  injection hdec with hdec
                  injection hdec with hLval hc
                  set ds := rest.take (b0 - 128) with hds
                  have hdsbytes : ∀ d ∈ ds, d < 256 := by
                    intro d hd
                    refine hbytes d (List.mem_cons_of_mem b0 ?_)
                    rw [hds] at hd
                    exact List.take_subset _ _ hd
                  have huniq : digitsBE 256 (accumB 256 0 ds) = ds :=
                    digitsBE_unique (by norm_num) ds hdsbytes h5
                  rw [hLval] at huniq h6
                  have hdslen : ds.length = b0 - 128 := by
                    rw [hds, List.length_take]
                    omega
                  have hb0 : 128 + (b0 - 128) = b0 := by omega
                  have henc : derLenEnc L = b0 :: ds := by
                    rw [derLenEnc, if_neg h6, bytesBE, huniq, hdslen, hb0]
                  constructor
                  · rw [henc, List.length_cons, hdslen]
                    omega
                  · rw [henc, ← hc, Nat.add_comm 1 (b0 - 128),
                      List.take_succ_cons, ← hds]

/-- Witness for C3 at `L = 128`, the accepted sequence `[0x81, 0x80]`. -/
theorem claim_C3_witness :
    derLenDec (derLenEnc 128 ++ []) = some (128, (derLenEnc 128).length) ∧
      2 = (derLenEnc 128).length ∧ [129, 128].take 2 = derLenEnc 128 :=
  ⟨(claim_C3 128 (by decide)).1 [],
    ((claim_C3 128 (by decide)).2 [129, 128] 2 (by decide) (by decide)).1,
    ((claim_C3 128 (by decide)).2 [129, 128] 2 (by decide) (by decide)).2⟩

example : derLenEnc 127 = [127] := by decide
example : derLenEnc 128 = [129, 128] := by decide
example : derTagEnc 30 = some [30] := by decide
example : derTagEnc (31 + 31 * 256) = some [31, 31] := by decide
example : derEncodeRun 4 [1, 2, 3] = some [4, 3, 1, 2, 3] := by decide
example : derDecode [4, 3, 1, 2, 3] = some (4, [1, 2, 3], 3) := by decide
example : derSize [4, 3, 1, 2, 3] = some 5 := by decide
example : derIsValid [128] = false := by decide
example : derDecode2 [4, 3, 1, 2, 3] = some (4, 2, 3) := by decide

end Bee2Der
